import Mathlib

/-!
Verification of the persistent node store (`nodeDB` in nodedb.go and the
two-lock variant `nodeDB2`) backing the versioned IAVL tree.

Shallow embedding conventions:
* byte strings are `List Nat` (each entry a byte value);
* the backing key/value store is an association list `List (Bytes × Bytes)`;
* the pending write batch is the list of buffered operations, in order;
* Go panics and returned errors are both modelled as `Except (GoErr × σ) σ`
  where the error carries the state of the store at the moment of failure
  (a Go panic does not roll back mutations already made through the
  receiver pointer);
* Go `int64` versions are `Int`; the 8-byte big-endian two's-complement
  encoding used in keys is made explicit.
-/

/-- Byte strings, one `Nat` per byte. -/
abbrev Bytes := List Nat

/-- Unsigned big-endian value of a byte string. -/
def beDecU (bs : Bytes) : Nat :=
  bs.foldl (fun a b => a * 256 + b) 0

/-- Signed (two's-complement, 8-byte) decoding of a byte string, as done by
the key codec when scanning an int64 out of a key. -/
def beDec (bs : Bytes) : Int :=
  let u := beDecU bs
  if u < 2 ^ 63 then (u : Int) else (u : Int) - 2 ^ 64

/-- 8-byte big-endian two's-complement encoding of an int64 value,
as produced by the key codec for version numbers. -/
def be8 (v : Int) : Bytes :=
  let n := (v % (2 ^ 64 : Int)).toNat
  [n / 256 ^ 7 % 256, n / 256 ^ 6 % 256, n / 256 ^ 5 % 256, n / 256 ^ 4 % 256,
   n / 256 ^ 3 % 256, n / 256 ^ 2 % 256, n / 256 % 256, n % 256]

/-- Modelled from the spec: the key codec (`NewKeyFormat`, key_format.go is
not part of the provided sources). A node key is the byte 'n' (0x6E)
followed by the raw hash. -/
def nodeKeyBytes (hash : Bytes) : Bytes := 0x6E :: hash

/-- Modelled from the spec: an orphan key is the byte 'o' (0x6F) followed by
`last_version` then `first_version`, each 8-byte big-endian signed, then the
raw hash. In the source, `orphanKey fromVersion toVersion hash` calls
`orphanKeyFormat.Key(toVersion, fromVersion, hash)`, so `toVersion` (= last)
is the leading integer. -/
def goOrphanKey (fromVersion toVersion : Int) (hash : Bytes) : Bytes :=
  0x6F :: (be8 toVersion ++ be8 fromVersion ++ hash)

/-- Modelled from the spec: a root key is the byte 'r' (0x72) followed by the
8-byte big-endian signed version. -/
def rootKeyBytes (version : Int) : Bytes := 0x72 :: be8 version

deriving instance DecidableEq for Except

/-- Error kinds of the store (Go panics and returned errors). -/
inductive GoErr where
  | invariantViolation : GoErr
  | corrupt : GoErr
  | nonConsecutiveVersion : GoErr
deriving DecidableEq, Repr

/-- One buffered operation of a write batch. -/
inductive BatchOp where
  | set : Bytes → Bytes → BatchOp
  | del : Bytes → BatchOp
deriving DecidableEq, Repr

/-- The pending write batch, in buffering order. -/
abbrev Batch := List BatchOp

/-- The backing ordered key/value store, as an association list with unique
keys. -/
abbrev DB := List (Bytes × Bytes)

/-- Point get on the backing store. -/
def dbGet (db : DB) (k : Bytes) : Option Bytes :=
  (db.find? (fun kv => decide (kv.1 = k))).map (fun kv => kv.2)

/-- Applying a buffered set to the backing store. -/
def dbSet (db : DB) (k v : Bytes) : DB :=
  db.filter (fun kv => decide (kv.1 ≠ k)) ++ [(k, v)]

/-- Applying a buffered delete to the backing store. -/
def dbDel (db : DB) (k : Bytes) : DB :=
  db.filter (fun kv => decide (kv.1 ≠ k))

/-- Atomic flush of a batch into the backing store (`batch.Write()`). -/
def applyBatch (db : DB) (b : Batch) : DB :=
  b.foldl (fun d op => match op with
    | .set k v => dbSet d k v
    | .del k => dbDel d k) db

/-- Modelled from the spec: a tree node as seen by the store. Its content is
opaque to the store (node.go is not part of the provided sources); only the
hash and the persistence flags are inspected, so the content is kept as the
opaque byte payload `content`. -/
structure Node where
  hash : Bytes
  persisted : Bool
  persistedMem : Bool
  content : Bytes
deriving DecidableEq, Repr

/-- State of the single-lock store `nodeDB` (nodedb.go). The LRU queue holds
the cached nodes, least recently used first; the `nodeCache` map of the
source is the derived index of this queue (each hash occurs at most once).
The mutex, the memory database handle and the leaf-value callback have no
bearing on the claims and are omitted. -/
structure NDB where
  db : DB
  batch : Batch
  memNodes : List (Bytes × Node)
  latestVersion : Int
  cacheQueue : List Node
  nodeCacheSize : Int
  nodeMaxCacheSize : Nat
  nodeCacheOnlyFlushOnSave : Bool
deriving DecidableEq, Repr

/-- State of the two-lock store `nodeDB2` (second source file). Same
modelling conventions as `NDB`; `nodeDB2` has no memory-node tier and no
maximum cache size field. -/
structure NDB2 where
  db : DB
  batch : Batch
  latestVersion : Int
  cacheQueue : List Node
  nodeCacheSize : Int
deriving DecidableEq, Repr

/-- The largest root version recorded in the backing store that lies in the
interval `[1, version)`, or `0` when there is none. This embeds
`getPreviousVersion`: a reverse range scan over the keys in
`[rootKey 1, rootKey version)` taking the first hit — big-endian encoding
is order preserving on that range, so the scan returns exactly the maximum
parsed root version below `version`. -/
def getPreviousVersion (db : DB) (version : Int) : Int :=
  db.foldl (fun acc kv =>
    match kv.1 with
    | 0x72 :: rest =>
      let v := beDec (rest.take 8)
      if 1 ≤ v ∧ v < version ∧ acc < v then v else acc
    | _ => acc) 0

/-- Lazy latest-version query of `nodeDB` (`getLatestVersion`): when the
in-memory counter is `0` it is initialised from a reverse scan over the root
keys below the maximal int64. Returns the answer and the (possibly updated)
state. -/
def NDB.getLatestVersion (s : NDB) : Int × NDB :=
  if s.latestVersion = 0 then
    let lv := getPreviousVersion s.db (2 ^ 63 - 1)
    (lv, { s with latestVersion := lv })
  else (s.latestVersion, s)

/-- Raises the in-memory latest-version counter (`updateLatestVersion`). -/
def NDB.updateLatestVersion (s : NDB) (version : Int) : NDB :=
  if s.latestVersion < version then { s with latestVersion := version } else s

/-- Overwrites the in-memory latest-version counter (`resetLatestVersion`). -/
def NDB.resetLatestVersion (s : NDB) (version : Int) : NDB :=
  { s with latestVersion := version }

/-- Buffers a single orphan entry (`nodeDB.saveOrphan`); panics when the
lifetime is inverted. -/
def NDB.saveOrphan (s : NDB) (hash : Bytes) (fromVersion toVersion : Int) : Except (GoErr × NDB) NDB :=
  if fromVersion > toVersion then .error (.invariantViolation, s)
  else .ok { s with batch := s.batch ++ [.set (goOrphanKey fromVersion toVersion hash) hash] }

/-- Records the lifetime markers of a version's orphan set
(`nodeDB.SaveOrphans`): the endpoint is `version - 1`. The Go map is modelled
as a list of (hash, fromVersion) pairs in iteration order. -/
def NDB.SaveOrphans (s : NDB) (version : Int) (orphans : List (Bytes × Int)) : Except (GoErr × NDB) NDB :=
  let toVersion := version - 1
  orphans.foldlM (fun st e => st.saveOrphan e.1 e.2 toVersion) s

/-- Removes the entry with the given hash from the LRU queue and the cache
index (`nodeDB.uncacheNode`); each hash occurs at most once in the queue. -/
def NDB.uncacheNode (s : NDB) (hash : Bytes) : NDB :=
  { s with cacheQueue := s.cacheQueue.filter (fun n => decide (n.hash ≠ hash)) }

/-- Inserts a node at the most-recently-used end of the cache
(`nodeDB.cacheNode`); unless eviction is deferred to commit time, the
least-recently-used entry is evicted when the size limit is exceeded. -/
def NDB.cacheNode (s : NDB) (node : Node) : NDB :=
  let q := s.cacheQueue ++ [node]
  if ¬s.nodeCacheOnlyFlushOnSave ∧ s.nodeCacheSize < (q.length : Int) then
    { s with cacheQueue := q.tail }
  else
    { s with cacheQueue := q }

/-- The eviction loop of `nodeDB.FlushCache`: pop the least-recently-used
entry while the queue is longer than the size limit. (With an empty queue
and a negative limit the Go loop would dereference nil; that state is not
constructible, and the model returns the empty queue.) -/
def flushCacheLoop : List Node → Int → List Node
  | [], _ => []
  | n :: t, size =>
    if size < ((n :: t).length : Int) then flushCacheLoop t size else n :: t

/-- Shrinks the cache back under the size limit (`nodeDB.FlushCache`). -/
def NDB.FlushCache (s : NDB) : NDB :=
  { s with cacheQueue := flushCacheLoop s.cacheQueue s.nodeCacheSize }

/-- Flushes the pending batch, installs a fresh batch, and flushes the cache
(`nodeDB.Commit`). -/
def NDB.Commit (s : NDB) : NDB :=
  NDB.FlushCache { s with db := applyBatch s.db s.batch, batch := [] }

/-- Whether the configured maximum cache size is exceeded
(`nodeDB.MaxChacheSizeExceeded`). -/
def NDB.MaxChacheSizeExceeded (s : NDB) : Bool :=
  decide (0 < s.nodeMaxCacheSize) && decide (s.nodeMaxCacheSize < s.cacheQueue.length)

/-- One orphan entry as enumerated by `traverseOrphansVersion`: the raw key,
the stored value (the hash), and the two versions scanned out of the key. -/
structure OrphanEntry where
  key : Bytes
  hash : Bytes
  fromVersion : Int
  toVersion : Int
deriving DecidableEq, Repr

/-- The orphan entries of the backing store whose key starts with
'o' followed by the big-endian `version` — exactly the entries visited by
`traverseOrphansVersion version`. -/
def orphansEndingAt (db : DB) (version : Int) : List OrphanEntry :=
  db.filterMap (fun kv =>
    if kv.1.take 9 = 0x6F :: be8 version then
      some { key := kv.1, hash := kv.2,
             fromVersion := beDec ((kv.1.drop 9).take 8),
             toVersion := beDec ((kv.1.drop 1).take 8) }
    else none)

/-- The body of the `traverseOrphansVersion` callback in
`deleteOrphansWithPredecessor`: always delete the orphan key; then either
delete the node entry and uncache it, or shorten the lifetime to
`predecessor`. -/
def NDB.deleteOrphanStep (predecessor : Int) (s : NDB) (e : OrphanEntry) : Except (GoErr × NDB) NDB :=
  let s1 : NDB := { s with batch := s.batch ++ [.del e.key] }
  if predecessor < e.fromVersion ∨ e.fromVersion = e.toVersion then
    .ok (NDB.uncacheNode
      { s1 with batch := s1.batch ++ [.del (nodeKeyBytes e.hash)] } e.hash)
  else
    s1.saveOrphan e.hash e.fromVersion predecessor

/-- The body of the unsaved-orphans loop in `deleteOrphansWithPredecessor`;
the threaded pair is the store state and the caller's surviving map
entries. -/
def NDB.deleteUnsavedOrphanStep (toVersion predecessor : Int)
    (acc : NDB × List (Bytes × Int)) (e : Bytes × Int) :
    Except (GoErr × NDB) (NDB × List (Bytes × Int)) :=
  let s1 : NDB := { acc.1 with
    batch := acc.1.batch ++ [.del (goOrphanKey e.2 toVersion e.1)] }
  if predecessor < e.2 ∨ e.2 = toVersion then
    .ok (NDB.uncacheNode
      { s1 with batch := s1.batch ++ [.del (nodeKeyBytes e.1)] } e.1, acc.2)
  else
    match s1.saveOrphan e.1 e.2 predecessor with
    | .error err => .error err
    | .ok s2 => .ok (s2, acc.2 ++ [(e.1, predecessor)])

/-- Deletes the orphan entries expiring at `version` given a predecessor
version (`nodeDB.deleteOrphansWithPredecessor`). When an unsaved-orphans map
is passed, its entries are processed by the second loop and the updated map
is returned. -/
def NDB.deleteOrphansWithPredecessor (s : NDB) (version predecessor : Int)
    (unsavedOrphans : Option (List (Bytes × Int))) :
    Except (GoErr × NDB) (NDB × Option (List (Bytes × Int))) := do
  let s ← (orphansEndingAt s.db version).foldlM (NDB.deleteOrphanStep predecessor) s
  match unsavedOrphans with
  | none => return (s, none)
  | some m =>
    let toVersion := if 1 < version then version + 1 else version
    let p ← m.foldlM (NDB.deleteUnsavedOrphanStep toVersion predecessor) (s, [])
    return (p.1, some p.2)

/-- Deletes the orphan entries expiring at `version`
(`nodeDB.deleteOrphans`): the predecessor is looked up in the root index. -/
def NDB.deleteOrphans (s : NDB) (version : Int) : Except (GoErr × NDB) NDB := do
  let predecessor := getPreviousVersion s.db version
  let p ← s.deleteOrphansWithPredecessor version predecessor none
  return p.1

/-- Buffers the deletion of a version's root entry (`nodeDB.deleteRoot`);
with `check` set it first panics when `version` is the latest version (the
`&&` short-circuit means the lazy latest query runs only when `check`). -/
def NDB.deleteRoot (s : NDB) (version : Int) (check : Bool) : Except (GoErr × NDB) NDB :=
  if check then
    let p := s.getLatestVersion
    if version = p.1 then .error (.invariantViolation, p.2)
    else .ok { p.2 with batch := p.2.batch ++ [.del (rootKeyBytes version)] }
  else .ok { s with batch := s.batch ++ [.del (rootKeyBytes version)] }

/-- Deletes a tree version (`nodeDB.DeleteVersion`): orphan processing, then
root deletion with the latest-version check. -/
def NDB.DeleteVersion (s : NDB) (version : Int) (check : Bool) : Except (GoErr × NDB) NDB := do
  let s ← s.deleteOrphans version
  s.deleteRoot version check

/-- Buffers a root entry after the consecutive-version check
(`nodeDB.saveRoot`); on success the latest-version counter advances. -/
def NDB.saveRoot (s : NDB) (hash : Bytes) (version : Int) : Except (GoErr × NDB) NDB :=
  let p := s.getLatestVersion
  if version ≠ p.1 + 1 then .error (.nonConsecutiveVersion, p.2)
  else .ok (NDB.updateLatestVersion
    { p.2 with batch := p.2.batch ++ [.set (rootKeyBytes version) hash] } version)

/-- Saves a non-empty root hash (`nodeDB.SaveRoot`); panics on an empty
hash. -/
def NDB.SaveRoot (s : NDB) (root : Node) (version : Int) : Except (GoErr × NDB) NDB :=
  if root.hash = [] then .error (.invariantViolation, s)
  else s.saveRoot root.hash version

/-- Saves the empty root hash (`nodeDB.SaveEmptyRoot`). -/
def NDB.SaveEmptyRoot (s : NDB) (version : Int) : Except (GoErr × NDB) NDB :=
  s.saveRoot [] version

/-- Loads a node (`nodeDB.GetNode`): cache hit promotes to the
most-recently-used position; a miss consults the memory-node tier and then
the backing store; a decoded node is marked persisted, given its hash, and
cached. `decode` stands for `MakeNode` with the configured leaf-value
callback. -/
def NDB.GetNode (decode : Bytes → Option Node) (s : NDB) (h : Bytes) :
    Except (GoErr × NDB) (Node × NDB) :=
  if h = [] then .error (.invariantViolation, s)
  else
    match s.cacheQueue.find? (fun n => decide (n.hash = h)) with
    | some n =>
      .ok (n, { s with
        cacheQueue := s.cacheQueue.eraseP (fun m => decide (m.hash = h)) ++ [n] })
    | none =>
      match (s.memNodes.find? (fun kv => decide (kv.1 = h))).map (fun kv => kv.2) with
      | some node =>
        let node := { node with hash := h }
        .ok (node, s.cacheNode node)
      | none =>
        match dbGet s.db (nodeKeyBytes h) with
        | none => .error (.invariantViolation, s)
        | some buf =>
          match decode buf with
          | none => .error (.corrupt, s)
          | some node =>
            let node := { node with persisted := true, hash := h }
            .ok (node, s.cacheNode node)

/-- Lazy latest-version query of `nodeDB2` (`getLatestVersion`). -/
def NDB2.getLatestVersion (s : NDB2) : Int × NDB2 :=
  if s.latestVersion = 0 then
    let lv := getPreviousVersion s.db (2 ^ 63 - 1)
    (lv, { s with latestVersion := lv })
  else (s.latestVersion, s)

/-- Raises the in-memory latest-version counter (`nodeDB2.updateLatestVersion`). -/
def NDB2.updateLatestVersion (s : NDB2) (version : Int) : NDB2 :=
  if s.latestVersion < version then { s with latestVersion := version } else s

/-- Overwrites the in-memory latest-version counter (`nodeDB2.resetLatestVersion`). -/
def NDB2.resetLatestVersion (s : NDB2) (version : Int) : NDB2 :=
  { s with latestVersion := version }

/-- Buffers a single orphan entry (`nodeDB2.saveOrphan`); panics when the
lifetime is inverted. -/
def NDB2.saveOrphan (s : NDB2) (hash : Bytes) (fromVersion toVersion : Int) :
    Except (GoErr × NDB2) NDB2 :=
  if fromVersion > toVersion then .error (.invariantViolation, s)
  else .ok { s with batch := s.batch ++ [.set (goOrphanKey fromVersion toVersion hash) hash] }

/-- Records the lifetime markers of a version's orphan set
(`nodeDB2.SaveOrphans`): unlike `nodeDB.SaveOrphans`, the endpoint is the
predecessor version found in the root index. -/
def NDB2.SaveOrphans (s : NDB2) (version : Int) (orphans : List (Bytes × Int)) :
    Except (GoErr × NDB2) NDB2 :=
  let toVersion := getPreviousVersion s.db version
  orphans.foldlM (fun st e => st.saveOrphan e.1 e.2 toVersion) s

/-- Removes the entry with the given hash from the LRU queue and the cache
index (`nodeDB2.uncacheNode`). -/
def NDB2.uncacheNode (s : NDB2) (hash : Bytes) : NDB2 :=
  { s with cacheQueue := s.cacheQueue.filter (fun n => decide (n.hash ≠ hash)) }

/-- Inserts a node at the most-recently-used end of the cache
(`nodeDB2.cacheNode`), evicting the least-recently-used entry when the size
limit is exceeded. -/
def NDB2.cacheNode (s : NDB2) (node : Node) : NDB2 :=
  let q := s.cacheQueue ++ [node]
  if s.nodeCacheSize < (q.length : Int) then
    { s with cacheQueue := q.tail }
  else
    { s with cacheQueue := q }

/-- Cache lookup with promotion to the most-recently-used position
(`nodeDB2.getCachedNode`). -/
def NDB2.getCachedNode (s : NDB2) (h : Bytes) : Option (Node × NDB2) :=
  match s.cacheQueue.find? (fun n => decide (n.hash = h)) with
  | some n =>
    some (n, { s with
      cacheQueue := s.cacheQueue.eraseP (fun m => decide (m.hash = h)) ++ [n] })
  | none => none

/-- The body of the `traverseOrphansVersion` callback in
`nodeDB2.deleteOrphans`. -/
def NDB2.deleteOrphanStep (predecessor : Int) (s : NDB2) (e : OrphanEntry) :
    Except (GoErr × NDB2) NDB2 :=
  let s1 : NDB2 := { s with batch := s.batch ++ [.del e.key] }
  if predecessor < e.fromVersion ∨ e.fromVersion = e.toVersion then
    .ok (NDB2.uncacheNode
      { s1 with batch := s1.batch ++ [.del (nodeKeyBytes e.hash)] } e.hash)
  else
    s1.saveOrphan e.hash e.fromVersion predecessor

/-- Deletes the orphan entries expiring at `version`
(`nodeDB2.deleteOrphans`). -/
def NDB2.deleteOrphans (s : NDB2) (version : Int) : Except (GoErr × NDB2) NDB2 :=
  let predecessor := getPreviousVersion s.db version
  (orphansEndingAt s.db version).foldlM (NDB2.deleteOrphanStep predecessor) s

/-- Buffers the deletion of a version's root entry (`nodeDB2.deleteRoot`). -/
def NDB2.deleteRoot (s : NDB2) (version : Int) (check : Bool) :
    Except (GoErr × NDB2) NDB2 :=
  if check then
    let p := s.getLatestVersion
    if version = p.1 then .error (.invariantViolation, p.2)
    else .ok { p.2 with batch := p.2.batch ++ [.del (rootKeyBytes version)] }
  else .ok { s with batch := s.batch ++ [.del (rootKeyBytes version)] }

/-- Deletes a tree version (`nodeDB2.DeleteVersion`). -/
def NDB2.DeleteVersion (s : NDB2) (version : Int) (check : Bool) :
    Except (GoErr × NDB2) NDB2 := do
  let s ← s.deleteOrphans version
  s.deleteRoot version check

/-- Buffers a root entry after the consecutive-version check
(`nodeDB2.saveRoot`). -/
def NDB2.saveRoot (s : NDB2) (hash : Bytes) (version : Int) :
    Except (GoErr × NDB2) NDB2 :=
  let p := s.getLatestVersion
  if version ≠ p.1 + 1 then .error (.nonConsecutiveVersion, p.2)
  else .ok (NDB2.updateLatestVersion
    { p.2 with batch := p.2.batch ++ [.set (rootKeyBytes version) hash] } version)

/-- Saves a non-empty root hash (`nodeDB2.SaveRoot`). -/
def NDB2.SaveRoot (s : NDB2) (root : Node) (version : Int) :
    Except (GoErr × NDB2) NDB2 :=
  if root.hash = [] then .error (.invariantViolation, s)
  else s.saveRoot root.hash version

/-- Saves the empty root hash (`nodeDB2.SaveEmptyRoot`). -/
def NDB2.SaveEmptyRoot (s : NDB2) (version : Int) : Except (GoErr × NDB2) NDB2 :=
  s.saveRoot [] version

/-- Flushes the pending batch and installs a fresh batch (`nodeDB2.Commit`);
the cache is not touched. -/
def NDB2.Commit (s : NDB2) : NDB2 :=
  { s with db := applyBatch s.db s.batch, batch := [] }

/-- Loads a node (`nodeDB2.GetNode`): cache hit with promotion, else a
backing-store read; the decoded node is given its hash, marked persisted,
and cached. `decode` stands for `MakeNode` with the configured leaf-value
callback. -/
def NDB2.GetNode (decode : Bytes → Option Node) (s : NDB2) (h : Bytes) :
    Except (GoErr × NDB2) (Node × NDB2) :=
  if h = [] then .error (.invariantViolation, s)
  else
    match s.getCachedNode h with
    | some p => .ok p
    | none =>
      match dbGet s.db (nodeKeyBytes h) with
      | none => .error (.invariantViolation, s)
      | some buf =>
        match decode buf with
        | none => .error (.corrupt, s)
        | some node =>
          let node := { node with hash := h, persisted := true }
          .ok (node, s.cacheNode node)

/-- Reports whether the maximum cache size is exceeded
(`nodeDB2.MaxChacheSizeExceeded`): the body is the literal `true`. -/
def NDB2.MaxChacheSizeExceeded (_ : NDB2) : Bool :=
  true

/-- The batch operations contributed for one orphan entry by the orphan pass
of version deletion: the orphan key is always deleted; then either the node
entry is deleted or a shortened replacement orphan entry is recorded. -/
def orphanStepOps (predecessor : Int) (e : OrphanEntry) : Batch :=
  if predecessor < e.fromVersion ∨ e.fromVersion = e.toVersion then
    [.del e.key, .del (nodeKeyBytes e.hash)]
  else
    [.del e.key, .set (goOrphanKey e.fromVersion predecessor e.hash) e.hash]

/-- A fresh single-lock store state with everything empty, used to build the
concrete inputs of the examples below. -/
def ndb0 : NDB :=
  { db := [], batch := [], memNodes := [], latestVersion := 0, cacheQueue := [],
    nodeCacheSize := 0, nodeMaxCacheSize := 0, nodeCacheOnlyFlushOnSave := false }

/-- A fresh two-lock store state with everything empty. -/
def ndb20 : NDB2 :=
  { db := [], batch := [], latestVersion := 0, cacheQueue := [], nodeCacheSize := 0 }

/-- An unpersisted node with the given hash and empty content. -/
def mkNode (h : Bytes) : Node :=
  { hash := h, persisted := false, persistedMem := false, content := [] }

/-- A two-lock store whose root index holds versions 1 only: the predecessor
of version 3 is 1, not 2. -/
def gapStore : NDB2 :=
  { ndb20 with db := [(rootKeyBytes 1, [0])] }

/-- A single-lock store whose cache holds two nodes while the size limit is
one (reachable with deferred eviction). -/
def overfullStore : NDB :=
  { ndb0 with
    cacheQueue := [mkNode [1], mkNode [2]]
    nodeCacheSize := 1
    nodeCacheOnlyFlushOnSave := true }

/-- A single-lock store at latest version 2 with one orphan entry expiring at
version 2 and the orphaned node cached. -/
def latestStore : NDB :=
  { ndb0 with
    db := [(rootKeyBytes 1, [42]), (rootKeyBytes 2, [43]),
           (goOrphanKey 2 2 [7], [7])],
    latestVersion := 2,
    cacheQueue := [mkNode [7]],
    nodeCacheSize := 10 }

/-- A single-lock store whose memory-node tier holds a node that is absent
from the backing store. -/
def memTierStore : NDB :=
  { ndb0 with memNodes := [([9], mkNode [3])], nodeCacheSize := 10 }

/-- A single-lock store with deferred eviction, a full cache of one node,
and one node entry on disk. -/
def fullCacheStore : NDB :=
  { ndb0 with
    db := [(nodeKeyBytes [9], [55])]
    cacheQueue := [mkNode [1]]
    nodeCacheSize := 1
    nodeCacheOnlyFlushOnSave := true }

/-- A decoder that fails on every input (a stand-in `MakeNode`). -/
def decodeFail : Bytes → Option Node :=
  fun _ => none

/-- A decoder that wraps the raw bytes as an unpersisted node (a stand-in
`MakeNode`). -/
def decodeWrap : Bytes → Option Node :=
  fun b => some { hash := [], persisted := false, persistedMem := false, content := b }

/-- A single-lock store at latest version 1 with an empty batch, used to
exercise the root-saving paths. -/
def rootStore : NDB :=
  { ndb0 with db := [(rootKeyBytes 1, [42])], latestVersion := 1 }

/-- A two-lock store at latest version 1 with an empty batch. -/
def rootStore2 : NDB2 :=
  { ndb20 with db := [(rootKeyBytes 1, [42])], latestVersion := 1 }

/-- A single-lock store holding one orphan entry with lifetime [1, 2] while
roots 1 and 3 survive, used to exercise lifetime shortening. -/
def shortenStore : NDB :=
  { ndb0 with
    db := [(rootKeyBytes 1, [42]), (rootKeyBytes 3, [44]),
           (goOrphanKey 1 2 [7], [7])],
    latestVersion := 3,
    cacheQueue := [mkNode [7]],
    nodeCacheSize := 10 }

/-- The node produced by decoding the disk entry of `fullCacheStore`. -/
def wrapNode9 : Node :=
  { hash := [9], persisted := true, persistedMem := false, content := [55] }

/-- The state of `fullCacheStore` after the deferred-eviction cache insert
of `wrapNode9`. -/
def fullCacheAfter : NDB :=
  { fullCacheStore with cacheQueue := [mkNode [1], wrapNode9] }

/-- The state `latestStore` after the orphan pass of deleting version 2:
the orphan entry and the node entry are already deleted from the pending
batch and the node is uncached, before the latest-version check fires. -/
def latestStoreAfter : NDB :=
  { latestStore with
    batch := [.del (goOrphanKey 2 2 [7]), .del (nodeKeyBytes [7])]
    cacheQueue := [] }

/-- A two-lock store holding one orphan entry with lifetime [1, 2] while
roots 1 and 3 survive. -/
def shortenStore2 : NDB2 :=
  { ndb20 with
    db := [(rootKeyBytes 1, [42]), (rootKeyBytes 3, [44]),
           (goOrphanKey 1 2 [7], [7])]
    latestVersion := 3
    cacheQueue := [mkNode [7]]
    nodeCacheSize := 10 }

/-- The state of `shortenStore` after deleting the orphans of version 2:
the orphan entry is deleted and a shortened entry with last = 1 recorded. -/
def shortenAfter : NDB :=
  { shortenStore with
    batch := [.del (goOrphanKey 1 2 [7]), .set (goOrphanKey 1 1 [7]) [7]] }

/-- The state of `shortenStore2` after deleting the orphans of version 2. -/
def shortenAfter2 : NDB2 :=
  { shortenStore2 with
    batch := [.del (goOrphanKey 1 2 [7]), .set (goOrphanKey 1 1 [7]) [7]] }

/-- The node returned by a memory-tier hit on `memTierStore`: the staged
node with its hash set, still unpersisted. -/
def memNode9 : Node :=
  { hash := [9], persisted := false, persistedMem := false, content := [] }

/-- A two-lock store with one node entry on disk and an empty cache. -/
def getStore2 : NDB2 :=
  { ndb20 with db := [(nodeKeyBytes [9], [55])], nodeCacheSize := 10 }

lemma beDecU_be8 (v : Int) : beDecU (be8 v) = (v % (2 ^ 64 : Int)).toNat := by
  simp only [beDecU, be8, List.foldl]
  norm_num
  omega

lemma beDec_be8 (v : Int) (h1 : -(2 ^ 63) ≤ v) (h2 : v < 2 ^ 63) :
    beDec (be8 v) = v := by
  simp only [beDec, beDecU_be8]
  omega

lemma be8_length (v : Int) : (be8 v).length = 8 := by
  simp [be8]

lemma getPreviousVersion_bounds (db : DB) (version : Int) :
    0 ≤ getPreviousVersion db version ∧
      (1 ≤ version → getPreviousVersion db version < version) := by
  unfold getPreviousVersion
  have aux : ∀ (l : DB) (a : Int), 0 ≤ a → (1 ≤ version → a < version) →
      0 ≤ l.foldl (fun acc kv =>
        match kv.1 with
        | 0x72 :: rest =>
          let v := beDec (rest.take 8)
          if 1 ≤ v ∧ v < version ∧ acc < v then v else acc
        | _ => acc) a ∧
      (1 ≤ version → l.foldl (fun acc kv =>
        match kv.1 with
        | 0x72 :: rest =>
          let v := beDec (rest.take 8)
          if 1 ≤ v ∧ v < version ∧ acc < v then v else acc
        | _ => acc) a < version) := by
    intro l
    induction l with
    | nil => intro a ha hav; simpa using ⟨ha, hav⟩
    | cons kv t ih =>
      intro a ha hav
      simp only [List.foldl_cons]
      apply ih
      · dsimp only
        split
        · split
          · next h1 => linarith [h1.1]
          · exact ha
        · exact ha
      · intro hv
        dsimp only
        split
        · split
          · next h1 => exact h1.2.1
          · exact hav hv
        · exact hav hv
  exact aux db 0 le_rfl (by intro h; linarith)

/-- C9: in the two-lock variant `nodeDB2`, `MaxChacheSizeExceeded` returns
`true` for every state of the store, regardless of the cache size or any
limit, whereas in the single-lock variant it reports whether a positive
configured maximum is exceeded by the cache queue length. -/
theorem maxChacheSizeExceeded_characterization :
    (∀ s : NDB2, NDB2.MaxChacheSizeExceeded s = true) ∧
    (∀ s : NDB, NDB.MaxChacheSizeExceeded s = true ↔
      0 < s.nodeMaxCacheSize ∧ s.nodeMaxCacheSize < s.cacheQueue.length) := by
  constructor
  · intro s; rfl
  · intro s
    simp [NDB.MaxChacheSizeExceeded]

/-- C7: recording an orphan, in either variant, fails with
InvariantViolation exactly when `first > last`; otherwise it buffers the key
'o' (0x6F) followed by `last` then `first` (each 8-byte big-endian) then the
hash, mapped to the hash itself. -/
theorem saveOrphan_key_layout (s : NDB) (s2 : NDB2) (hash : Bytes) (f l : Int) :
    (NDB.saveOrphan s hash f l =
      if l < f then .error (.invariantViolation, s)
      else .ok { s with
        batch := s.batch ++ [.set (0x6F :: (be8 l ++ be8 f ++ hash)) hash] }) ∧
    (NDB2.saveOrphan s2 hash f l =
      if l < f then .error (.invariantViolation, s2)
      else .ok { s2 with
        batch := s2.batch ++ [.set (0x6F :: (be8 l ++ be8 f ++ hash)) hash] }) := by
  constructor <;> rfl

lemma saveOrphans_foldlM_ndb (t : Int) (orphans : List (Bytes × Int)) :
    ∀ (s s' : NDB),
      orphans.foldlM (fun st e => NDB.saveOrphan st e.1 e.2 t) s = .ok s' →
      s'.batch = s.batch ++
        orphans.map (fun e => BatchOp.set (goOrphanKey e.2 t e.1) e.1) := by
  induction orphans with
  | nil =>
    intro s s' h
    simp only [List.foldlM_nil, pure, Except.pure, Except.ok.injEq] at h
    subst h
    simp
  | cons e es ih =>
    intro s s' h
    simp only [List.foldlM_cons] at h
    cases hs : NDB.saveOrphan s e.1 e.2 t with
    | error p =>
      rw [hs] at h
      simp [Bind.bind, Except.bind] at h
    | ok s1 =>
      rw [hs] at h
      simp only [Bind.bind, Except.bind] at h
      have hb := ih s1 s' h
      unfold NDB.saveOrphan at hs
      split at hs
      · cases hs
      · cases hs
        rw [hb]
        simp

lemma saveOrphans_foldlM_ndb2 (t : Int) (orphans : List (Bytes × Int)) :
    ∀ (s s' : NDB2),
      orphans.foldlM (fun st e => NDB2.saveOrphan st e.1 e.2 t) s = .ok s' →
      s'.batch = s.batch ++
        orphans.map (fun e => BatchOp.set (goOrphanKey e.2 t e.1) e.1) := by
  induction orphans with
  | nil =>
    intro s s' h
    simp only [List.foldlM_nil, pure, Except.pure, Except.ok.injEq] at h
    subst h
    simp
  | cons e es ih =>
    intro s s' h
    simp only [List.foldlM_cons] at h
    cases hs : NDB2.saveOrphan s e.1 e.2 t with
    | error p =>
      rw [hs] at h
      simp [Bind.bind, Except.bind] at h
    | ok s1 =>
      rw [hs] at h
      simp only [Bind.bind, Except.bind] at h
      have hb := ih s1 s' h
      unfold NDB2.saveOrphan at hs
      split at hs
      · cases hs
      · cases hs
        rw [hb]
        simp

set_option maxRecDepth 8192 in
/-- C1 (counterexample): on the two-lock variant, `SaveOrphans(3, {[1]: 1})`
against a store whose only surviving root is version 1 writes the orphan
entry with `last = 1` (the predecessor found in the root index), not
`last = 3 - 1 = 2` as the claim states for every call. -/
theorem saveOrphans_endpoint_counterexample :
    NDB2.SaveOrphans gapStore 3 [([1], 1)] =
      .ok { gapStore with batch := [.set (goOrphanKey 1 1 [1]) [1]] } ∧
    goOrphanKey 1 1 [1] ≠ goOrphanKey 1 (3 - 1) [1] := by
  constructor
  · decide
  · decide

/-- C1 (amended): the single-lock variant `nodeDB.SaveOrphans(new_version,
orphans)` records, for every entry `(hash, first_version)`, the orphan entry
with `first = first_version` and `last = new_version - 1`; the two-lock
variant `nodeDB2.SaveOrphans` instead uses the predecessor version found in
the root index as the lifetime endpoint. -/
theorem saveOrphans_endpoint (s s' : NDB) (version : Int)
    (orphans : List (Bytes × Int))
    (h : NDB.SaveOrphans s version orphans = .ok s') :
    s'.batch = s.batch ++
      orphans.map (fun e => BatchOp.set (goOrphanKey e.2 (version - 1) e.1) e.1) ∧
    (∀ e ∈ orphans,
      BatchOp.set (goOrphanKey e.2 (version - 1) e.1) e.1 ∈ s'.batch) ∧
    ∀ (s2 s2' : NDB2), NDB2.SaveOrphans s2 version orphans = .ok s2' →
      s2'.batch = s2.batch ++ orphans.map
        (fun e =>
          BatchOp.set (goOrphanKey e.2 (getPreviousVersion s2.db version) e.1) e.1) := by
  have h1 : orphans.foldlM (fun st e => NDB.saveOrphan st e.1 e.2 (version - 1)) s
      = .ok s' := h
  refine ⟨saveOrphans_foldlM_ndb _ _ _ _ h1, ?_, ?_⟩
  · intro e he
    rw [saveOrphans_foldlM_ndb _ _ _ _ h1]
    exact List.mem_append_right _ (List.mem_map_of_mem _ he)
  · intro s2 s2' h2
    exact saveOrphans_foldlM_ndb2 _ _ _ _ h2

/-- Witness for the amended C1 theorem at a concrete input. -/
theorem saveOrphans_endpoint_witness :
    ∃ s', NDB.SaveOrphans ndb0 2 [([9], 1)] = .ok s' ∧
      s'.batch = ndb0.batch ++ [BatchOp.set (goOrphanKey 1 1 [9]) [9]] := by
  have hrun : NDB.SaveOrphans ndb0 2 [([9], 1)] =
      .ok { ndb0 with batch := [.set (goOrphanKey 1 1 [9]) [9]] } := by rfl
  have h := saveOrphans_endpoint ndb0 _ 2 [([9], 1)] hrun
  exact ⟨_, hrun, by simpa using h.1⟩

lemma flushCacheLoop_suffix : ∀ (q : List Node) (size : Int),
    (flushCacheLoop q size).IsSuffix q
  | [], _ => List.nil_suffix
  | n :: t, size => by
    unfold flushCacheLoop
    split
    · exact (flushCacheLoop_suffix t size).trans (List.suffix_cons n t)
    · exact List.suffix_rfl

lemma flushCacheLoop_of_le (q : List Node) (size : Int)
    (h : (q.length : Int) ≤ size) : flushCacheLoop q size = q := by
  cases q with
  | nil => rfl
  | cons n t =>
    unfold flushCacheLoop
    rw [if_neg]
    omega

/-- C2 (counterexample): Commit on the single-lock variant does not leave
the cache unchanged: on `overfullStore` (two cached nodes, size limit one,
reachable with deferred eviction) Commit evicts the least-recently-used
entry, so a (hash, node) pair present before is gone after. -/
theorem commit_cache_counterexample :
    NDB.Commit overfullStore = { overfullStore with cacheQueue := [mkNode [2]] } ∧
    mkNode [1] ∈ overfullStore.cacheQueue ∧
    mkNode [1] ∉ (NDB.Commit overfullStore).cacheQueue := by
  refine ⟨by decide, by decide, by decide⟩

/-- C2 (amended): Commit flushes the pending batch into the backing store
and installs a fresh empty batch in both variants. The two-lock variant
leaves the cache exactly unchanged; the single-lock variant additionally
runs the FlushCache eviction loop, so its cache afterwards is a suffix of
the cache before and is unchanged whenever the cache was already within the
size limit. -/
theorem commit_spec (s : NDB) (s2 : NDB2) :
    (NDB2.Commit s2).db = applyBatch s2.db s2.batch ∧
    (NDB2.Commit s2).batch = [] ∧
    (NDB2.Commit s2).cacheQueue = s2.cacheQueue ∧
    (NDB.Commit s).db = applyBatch s.db s.batch ∧
    (NDB.Commit s).batch = [] ∧
    (NDB.Commit s).cacheQueue = flushCacheLoop s.cacheQueue s.nodeCacheSize ∧
    (NDB.Commit s).cacheQueue.IsSuffix s.cacheQueue ∧
    ((s.cacheQueue.length : Int) ≤ s.nodeCacheSize →
      (NDB.Commit s).cacheQueue = s.cacheQueue) := by
  refine ⟨rfl, rfl, rfl, rfl, rfl, rfl, flushCacheLoop_suffix _ _,
    fun h => flushCacheLoop_of_le _ _ h⟩

/-- Witness for the amended C2 theorem at a concrete input. -/
theorem commit_spec_witness :
    (NDB.Commit ndb0).cacheQueue = ndb0.cacheQueue ∧
    (NDB2.Commit ndb20).cacheQueue = ndb20.cacheQueue := by
  have h := commit_spec ndb0 ndb20
  exact ⟨h.2.2.2.2.2.2.2 (by decide), h.2.2.1⟩

/-- C8 (counterexample): with eviction deferred to commit time (the
NewNodeDB3 configuration), a cache insert performed by a get_node miss does
not evict: the cache of `fullCacheStore` is at its limit of one entry
before, and holds two entries afterwards. -/
theorem cache_insert_bound_counterexample :
    NDB.GetNode decodeWrap fullCacheStore [9] = .ok (wrapNode9, fullCacheAfter) ∧
    (fullCacheStore.cacheQueue.length : Int) ≤ fullCacheStore.nodeCacheSize ∧
    fullCacheStore.nodeCacheSize < (fullCacheAfter.cacheQueue.length : Int) := by
  refine ⟨by decide, by decide, by decide⟩

/-- C8 (amended): a cache insert preserves the size bound in the two-lock
variant always, and in the single-lock variant whenever eviction is not
deferred to commit time (`nodeCacheOnlyFlushOnSave = false`): an insert that
would exceed the limit evicts the least-recently-used entry in the same
step. -/
theorem cache_insert_bound (s : NDB) (s2 : NDB2) (n : Node)
    (hf : s.nodeCacheOnlyFlushOnSave = false)
    (h1 : (s.cacheQueue.length : Int) ≤ s.nodeCacheSize)
    (h2 : (s2.cacheQueue.length : Int) ≤ s2.nodeCacheSize) :
    ((NDB.cacheNode s n).cacheQueue.length : Int) ≤ s.nodeCacheSize ∧
    ((NDB2.cacheNode s2 n).cacheQueue.length : Int) ≤ s2.nodeCacheSize := by
  constructor
  · unfold NDB.cacheNode
    dsimp only
    split
    · next hc =>
      simp only [List.length_tail, List.length_append, List.length_singleton]
      omega
    · next hc =>
      rw [hf] at hc
      simp only [List.length_append, List.length_singleton]
      simp only [Bool.not_eq_true, not_and, not_lt] at hc
      have := hc (by simp)
      simpa using this
  · unfold NDB2.cacheNode
    dsimp only
    split
    · next hc =>
      simp only [List.length_tail, List.length_append, List.length_singleton]
      omega
    · next hc =>
      simp only [not_lt, List.length_append, List.length_singleton] at hc
      simpa using hc

/-- Witness for the amended C8 theorem at a concrete input. -/
theorem cache_insert_bound_witness :
    ((NDB.cacheNode ndb0 (mkNode [1])).cacheQueue.length : Int) ≤ ndb0.nodeCacheSize ∧
    ((NDB2.cacheNode ndb20 (mkNode [1])).cacheQueue.length : Int) ≤ ndb20.nodeCacheSize :=
  cache_insert_bound ndb0 ndb20 (mkNode [1]) (by decide) (by decide) (by decide)

lemma getLatestVersion_state (s : NDB) :
    (s.getLatestVersion).2 = { s with latestVersion := (s.getLatestVersion).1 } := by
  unfold NDB.getLatestVersion
  split
  · rfl
  · rfl

lemma getLatestVersion_fst_nonneg (s : NDB) (h0 : 0 ≤ s.latestVersion) :
    0 ≤ (s.getLatestVersion).1 := by
  unfold NDB.getLatestVersion
  split
  · exact (getPreviousVersion_bounds s.db _).1
  · exact h0

lemma getLatestVersion_state2 (s : NDB2) :
    (s.getLatestVersion).2 = { s with latestVersion := (s.getLatestVersion).1 } := by
  unfold NDB2.getLatestVersion
  split
  · rfl
  · rfl

lemma getLatestVersion_fst_nonneg2 (s : NDB2) (h0 : 0 ≤ s.latestVersion) :
    0 ≤ (s.getLatestVersion).1 := by
  unfold NDB2.getLatestVersion
  split
  · exact (getPreviousVersion_bounds s.db _).1
  · exact h0

/-- C5: in both variants, `save_root(h, v)` (including the empty hash via
`SaveEmptyRoot`) succeeds iff `v = latest() + 1`: otherwise it returns the
non-consecutive-version error with the batch unchanged; on success it
buffers `root_key(v) := h` and the latest-version query subsequently
returns `v`. The hypotheses `0 ≤ latestVersion` hold in every reachable
state (the counter starts at 0 and is only ever set to positive root
versions). -/
theorem save_root_consecutive (s : NDB) (s2 : NDB2) (hash : Bytes) (v : Int)
    (h0 : 0 ≤ s.latestVersion) (h02 : 0 ≤ s2.latestVersion) :
    ((v = (s.getLatestVersion).1 + 1 →
      NDB.saveRoot s hash v =
        .ok { (s.getLatestVersion).2 with
          batch := (s.getLatestVersion).2.batch ++ [.set (rootKeyBytes v) hash]
          latestVersion := v } ∧
      ∀ s', NDB.saveRoot s hash v = .ok s' → (s'.getLatestVersion).1 = v) ∧
    (v ≠ (s.getLatestVersion).1 + 1 →
      NDB.saveRoot s hash v = .error (.nonConsecutiveVersion, (s.getLatestVersion).2) ∧
      (s.getLatestVersion).2.batch = s.batch) ∧
    NDB.SaveEmptyRoot s v = NDB.saveRoot s [] v) ∧
    ((v = (s2.getLatestVersion).1 + 1 →
      NDB2.saveRoot s2 hash v =
        .ok { (s2.getLatestVersion).2 with
          batch := (s2.getLatestVersion).2.batch ++ [.set (rootKeyBytes v) hash]
          latestVersion := v } ∧
      ∀ s2', NDB2.saveRoot s2 hash v = .ok s2' → (s2'.getLatestVersion).1 = v) ∧
    (v ≠ (s2.getLatestVersion).1 + 1 →
      NDB2.saveRoot s2 hash v = .error (.nonConsecutiveVersion, (s2.getLatestVersion).2) ∧
      (s2.getLatestVersion).2.batch = s2.batch) ∧
    NDB2.SaveEmptyRoot s2 v = NDB2.saveRoot s2 [] v) := by
  have hsnd := getLatestVersion_state s
  have hfst := getLatestVersion_fst_nonneg s h0
  have hsnd2 := getLatestVersion_state2 s2
  have hfst2 := getLatestVersion_fst_nonneg2 s2 h02
  constructor
  · refine ⟨fun hv => ?_, fun hv => ?_, rfl⟩
    · have hkey : NDB.saveRoot s hash v =
          .ok { (s.getLatestVersion).2 with
            batch := (s.getLatestVersion).2.batch ++ [.set (rootKeyBytes v) hash]
            latestVersion := v } := by
        unfold NDB.saveRoot
        rw [if_neg (by simp [hv])]
        unfold NDB.updateLatestVersion
        rw [hsnd]
        dsimp only
        rw [if_pos (by omega)]
      refine ⟨hkey, ?_⟩
      intro s' h'
      rw [hkey] at h'
      cases h'
      rw [hsnd]
      unfold NDB.getLatestVersion
      dsimp only
      rw [if_neg (by omega)]
    · constructor
      · unfold NDB.saveRoot
        rw [if_pos hv]
      · rw [hsnd]
  · refine ⟨fun hv => ?_, fun hv => ?_, rfl⟩
    · have hkey : NDB2.saveRoot s2 hash v =
          .ok { (s2.getLatestVersion).2 with
            batch := (s2.getLatestVersion).2.batch ++ [.set (rootKeyBytes v) hash]
            latestVersion := v } := by
        unfold NDB2.saveRoot
        rw [if_neg (by simp [hv])]
        unfold NDB2.updateLatestVersion
        rw [hsnd2]
        dsimp only
        rw [if_pos (by omega)]
      refine ⟨hkey, ?_⟩
      intro s2' h'
      rw [hkey] at h'
      cases h'
      rw [hsnd2]
      unfold NDB2.getLatestVersion
      dsimp only
      rw [if_neg (by omega)]
    · constructor
      · unfold NDB2.saveRoot
        rw [if_pos hv]
      · rw [hsnd2]

/-- Witness for the C5 theorem at concrete inputs: saving version 2 on a
store at latest version 1 succeeds; saving version 5 fails. -/
theorem save_root_consecutive_witness :
    NDB.saveRoot rootStore [5] 2 =
      .ok { rootStore with
        batch := [BatchOp.set (rootKeyBytes 2) [5]]
        latestVersion := 2 } ∧
    NDB2.saveRoot rootStore2 [5] 5 = .error (.nonConsecutiveVersion, rootStore2) := by
  have h1 := save_root_consecutive rootStore rootStore2 [5] 2 (by decide) (by decide)
  have h2 := save_root_consecutive rootStore rootStore2 [5] 5 (by decide) (by decide)
  constructor
  · exact ((h1.1.1 (by decide)).1).trans (by decide)
  · exact ((h2.2.2.1 (by decide)).1).trans (by decide)

lemma deleteOrphans_foldlM2 (pred : Int) (entries : List OrphanEntry) :
    ∀ (s : NDB2), ∃ s',
      entries.foldlM (NDB2.deleteOrphanStep pred) s = .ok s' ∧
      s'.batch = s.batch ++ entries.flatMap (orphanStepOps pred) ∧
      (∀ n, n ∈ s'.cacheQueue ↔ n ∈ s.cacheQueue ∧
        ∀ e ∈ entries,
          (pred < e.fromVersion ∨ e.fromVersion = e.toVersion) → n.hash ≠ e.hash) ∧
      s'.db = s.db ∧ s'.latestVersion = s.latestVersion := by
  induction entries with
  | nil =>
    intro s
    exact ⟨s, rfl, by simp, fun n => by simp, rfl, rfl⟩
  | cons e es ih =>
    intro s
    by_cases hcond : pred < e.fromVersion ∨ e.fromVersion = e.toVersion
    · obtain ⟨s', hfold, hb, hc, hdb, hlv⟩ := ih
        { s with batch := (s.batch ++ [.del e.key]) ++ [.del (nodeKeyBytes e.hash)],
                 cacheQueue := s.cacheQueue.filter (fun n => decide (n.hash ≠ e.hash)) }
      have hstep : NDB2.deleteOrphanStep pred s e = .ok
          { s with batch := (s.batch ++ [.del e.key]) ++ [.del (nodeKeyBytes e.hash)],
                   cacheQueue := s.cacheQueue.filter (fun n => decide (n.hash ≠ e.hash)) } := by
        unfold NDB2.deleteOrphanStep NDB2.uncacheNode
        rw [if_pos hcond]
      refine ⟨s', ?_, ?_, ?_, by simpa using hdb, by simpa using hlv⟩
      · rw [List.foldlM_cons, hstep]
        simpa [Bind.bind, Except.bind] using hfold
      · rw [hb, List.flatMap_cons]
        unfold orphanStepOps
        rw [if_pos hcond]
        simp
      · intro n
        rw [hc n]
        simp only [List.mem_filter, decide_eq_true_eq, List.forall_mem_cons]
        constructor
        · rintro ⟨⟨hn, hne⟩, hP⟩
          exact ⟨hn, fun _ => hne, hP⟩
        · rintro ⟨hn, hi, hP⟩
          exact ⟨⟨hn, hi hcond⟩, hP⟩
    · obtain ⟨s', hfold, hb, hc, hdb, hlv⟩ := ih
        { s with batch := (s.batch ++ [.del e.key]) ++
            [.set (goOrphanKey e.fromVersion pred e.hash) e.hash] }
      have hle : ¬ e.fromVersion > pred := by
        push_neg at hcond ⊢
        exact hcond.1
      have hstep : NDB2.deleteOrphanStep pred s e = .ok
          { s with batch := (s.batch ++ [.del e.key]) ++
              [.set (goOrphanKey e.fromVersion pred e.hash) e.hash] } := by
        unfold NDB2.deleteOrphanStep NDB2.saveOrphan
        rw [if_neg hcond]
        dsimp only
        rw [if_neg hle]
      refine ⟨s', ?_, ?_, ?_, by simpa using hdb, by simpa using hlv⟩
      · rw [List.foldlM_cons, hstep]
        simpa [Bind.bind, Except.bind] using hfold
      · rw [hb, List.flatMap_cons]
        unfold orphanStepOps
        rw [if_neg hcond]
        simp
      · intro n
        rw [hc n]
        simp only [List.forall_mem_cons]
        constructor
        · rintro ⟨hn, hP⟩
          exact ⟨hn, fun hco => absurd hco hcond, hP⟩
        · rintro ⟨hn, _, hP⟩
          exact ⟨hn, hP⟩

lemma deleteOrphans_foldlM1 (pred : Int) (entries : List OrphanEntry) :
    ∀ (s : NDB), ∃ s',
      entries.foldlM (NDB.deleteOrphanStep pred) s = .ok s' ∧
      s'.batch = s.batch ++ entries.flatMap (orphanStepOps pred) ∧
      (∀ n, n ∈ s'.cacheQueue ↔ n ∈ s.cacheQueue ∧
        ∀ e ∈ entries,
          (pred < e.fromVersion ∨ e.fromVersion = e.toVersion) → n.hash ≠ e.hash) ∧
      s'.db = s.db ∧ s'.latestVersion = s.latestVersion := by
  induction entries with
  | nil =>
    intro s
    exact ⟨s, rfl, by simp, fun n => by simp, rfl, rfl⟩
  | cons e es ih =>
    intro s
    by_cases hcond : pred < e.fromVersion ∨ e.fromVersion = e.toVersion
    · obtain ⟨s', hfold, hb, hc, hdb, hlv⟩ := ih
        { s with batch := (s.batch ++ [.del e.key]) ++ [.del (nodeKeyBytes e.hash)],
                 cacheQueue := s.cacheQueue.filter (fun n => decide (n.hash ≠ e.hash)) }
      have hstep : NDB.deleteOrphanStep pred s e = .ok
          { s with batch := (s.batch ++ [.del e.key]) ++ [.del (nodeKeyBytes e.hash)],
                   cacheQueue := s.cacheQueue.filter (fun n => decide (n.hash ≠ e.hash)) } := by
        unfold NDB.deleteOrphanStep NDB.uncacheNode
        rw [if_pos hcond]
      refine ⟨s', ?_, ?_, ?_, by simpa using hdb, by simpa using hlv⟩
      · rw [List.foldlM_cons, hstep]
        simpa [Bind.bind, Except.bind] using hfold
      · rw [hb, List.flatMap_cons]
        unfold orphanStepOps
        rw [if_pos hcond]
        simp
      · intro n
        rw [hc n]
        simp only [List.mem_filter, decide_eq_true_eq, List.forall_mem_cons]
        constructor
        · rintro ⟨⟨hn, hne⟩, hP⟩
          exact ⟨hn, fun _ => hne, hP⟩
        · rintro ⟨hn, hi, hP⟩
          exact ⟨⟨hn, hi hcond⟩, hP⟩
    · obtain ⟨s', hfold, hb, hc, hdb, hlv⟩ := ih
        { s with batch := (s.batch ++ [.del e.key]) ++
            [.set (goOrphanKey e.fromVersion pred e.hash) e.hash] }
      have hle : ¬ e.fromVersion > pred := by
        push_neg at hcond ⊢
        exact hcond.1
      have hstep : NDB.deleteOrphanStep pred s e = .ok
          { s with batch := (s.batch ++ [.del e.key]) ++
              [.set (goOrphanKey e.fromVersion pred e.hash) e.hash] } := by
        unfold NDB.deleteOrphanStep NDB.saveOrphan
        rw [if_neg hcond]
        dsimp only
        rw [if_neg hle]
      refine ⟨s', ?_, ?_, ?_, by simpa using hdb, by simpa using hlv⟩
      · rw [List.foldlM_cons, hstep]
        simpa [Bind.bind, Except.bind] using hfold
      · rw [hb, List.flatMap_cons]
        unfold orphanStepOps
        rw [if_neg hcond]
        simp
      · intro n
        rw [hc n]
        simp only [List.forall_mem_cons]
        constructor
        · rintro ⟨hn, hP⟩
          exact ⟨hn, fun hco => absurd hco hcond, hP⟩
        · rintro ⟨hn, _, hP⟩
          exact ⟨hn, hP⟩

lemma deleteOrphans_ok2 (s : NDB2) (version : Int) :
    ∃ s', NDB2.deleteOrphans s version = .ok s' ∧
      s'.batch = s.batch ++ (orphansEndingAt s.db version).flatMap
        (orphanStepOps (getPreviousVersion s.db version)) ∧
      (∀ n, n ∈ s'.cacheQueue ↔ n ∈ s.cacheQueue ∧
        ∀ e ∈ orphansEndingAt s.db version,
          (getPreviousVersion s.db version < e.fromVersion ∨
            e.fromVersion = e.toVersion) → n.hash ≠ e.hash) ∧
      s'.db = s.db ∧ s'.latestVersion = s.latestVersion := by
  obtain ⟨s', hfold, hrest⟩ :=
    deleteOrphans_foldlM2 (getPreviousVersion s.db version) (orphansEndingAt s.db version) s
  exact ⟨s', hfold, hrest⟩

lemma deleteOrphans_ok1 (s : NDB) (version : Int) :
    ∃ s', NDB.deleteOrphans s version = .ok s' ∧
      s'.batch = s.batch ++ (orphansEndingAt s.db version).flatMap
        (orphanStepOps (getPreviousVersion s.db version)) ∧
      (∀ n, n ∈ s'.cacheQueue ↔ n ∈ s.cacheQueue ∧
        ∀ e ∈ orphansEndingAt s.db version,
          (getPreviousVersion s.db version < e.fromVersion ∨
            e.fromVersion = e.toVersion) → n.hash ≠ e.hash) ∧
      s'.db = s.db ∧ s'.latestVersion = s.latestVersion := by
  obtain ⟨s', hfold, hrest⟩ :=
    deleteOrphans_foldlM1 (getPreviousVersion s.db version) (orphansEndingAt s.db version) s
  refine ⟨s', ?_, hrest⟩
  unfold NDB.deleteOrphans NDB.deleteOrphansWithPredecessor
  simp only [hfold]
  rfl

lemma mem_orphansEndingAt {db : DB} {version : Int} {e : OrphanEntry}
    (he : e ∈ orphansEndingAt db version) :
    e.key.take 9 = 0x6F :: be8 version ∧
    e.toVersion = beDec ((e.key.drop 1).take 8) ∧
    e.fromVersion = beDec ((e.key.drop 9).take 8) := by
  unfold orphansEndingAt at he
  rw [List.mem_filterMap] at he
  obtain ⟨kv, hkv, hf⟩ := he
  split at hf
  · next hcond =>
    cases hf
    exact ⟨hcond, rfl, rfl⟩
  · cases hf

lemma orphanKey_take_structure {k : Bytes} {version : Int}
    (h : k.take 9 = 0x6F :: be8 version) :
    (k.drop 1).take 8 = be8 version ∧ k.head? = some 0x6F := by
  have hk : k = (0x6F :: be8 version) ++ k.drop 9 := by
    conv_lhs => rw [← List.take_append_drop 9 k]
    rw [h]
  constructor
  · rw [hk]
    have h8 : (be8 version ++ k.drop 9).take 8 = be8 version := by
      have := List.take_left (be8 version) (k.drop 9)
      rwa [be8_length] at this
    simpa using h8
  · rw [hk]
    rfl

lemma orphansEndingAt_toVersion {db : DB} {version : Int} {e : OrphanEntry}
    (he : e ∈ orphansEndingAt db version)
    (h1 : -(2 ^ 63) ≤ version) (h2 : version < 2 ^ 63) :
    e.toVersion = version := by
  obtain ⟨hkey, htv, _⟩ := mem_orphansEndingAt he
  rw [htv, (orphanKey_take_structure hkey).1, beDec_be8 version h1 h2]

lemma getLatestVersion_fst_congr (s1 s2 : NDB)
    (hdb : s1.db = s2.db) (hlv : s1.latestVersion = s2.latestVersion) :
    (s1.getLatestVersion).1 = (s2.getLatestVersion).1 := by
  unfold NDB.getLatestVersion
  rw [hdb, hlv]
  split <;> rfl

lemma orphanPassFacts
    (pred version : Int) (entries : List OrphanEntry)
    (oldBatch newBatch : Batch) (oldCache newCache : List Node)
    (hb : newBatch = oldBatch ++ entries.flatMap (orphanStepOps pred))
    (hc : ∀ n, n ∈ newCache ↔ n ∈ oldCache ∧
      ∀ e ∈ entries,
        (pred < e.fromVersion ∨ e.fromVersion = e.toVersion) → n.hash ≠ e.hash)
    (hpred : pred < version)
    (hkeys : ∀ e ∈ entries, e.key.take 9 = 0x6F :: be8 version)
    (hto : ∀ e ∈ entries, e.toVersion = version)
    (huniq : ∀ e1 ∈ entries, ∀ e2 ∈ entries, e1.hash = e2.hash → e1 = e2)
    (hclean : ∀ e ∈ entries, BatchOp.del (nodeKeyBytes e.hash) ∉ oldBatch) :
    ∀ e ∈ entries,
      e.toVersion = version ∧
      BatchOp.del e.key ∈ newBatch ∧
      ((pred < e.fromVersion ∨ e.fromVersion = e.toVersion) ↔
        (BatchOp.del (nodeKeyBytes e.hash) ∈ newBatch ∧
          ∀ n ∈ newCache, n.hash ≠ e.hash)) ∧
      (¬(pred < e.fromVersion ∨ e.fromVersion = e.toVersion) →
        BatchOp.set (goOrphanKey e.fromVersion pred e.hash) e.hash ∈ newBatch ∧
        BatchOp.del (nodeKeyBytes e.hash) ∉ newBatch ∧
        (∀ n ∈ oldCache, n.hash = e.hash → n ∈ newCache) ∧
        pred < e.toVersion) := by
  intro e he
  have hsurvive : ¬(pred < e.fromVersion ∨ e.fromVersion = e.toVersion) →
      BatchOp.del (nodeKeyBytes e.hash) ∉ newBatch := by
    intro hnc hmem
    rw [hb, List.mem_append] at hmem
    rcases hmem with hmem | hmem
    · exact hclean e he hmem
    · rw [List.mem_flatMap] at hmem
      obtain ⟨e1, he1, hmem⟩ := hmem
      have hhead1 : e1.key.head? = some 0x6F :=
        (orphanKey_take_structure (hkeys e1 he1)).2
      unfold orphanStepOps at hmem
      split at hmem
      · next hce1 =>
        simp only [List.mem_cons, List.not_mem_nil, or_false] at hmem
        rcases hmem with hmem | hmem
        · have hk : nodeKeyBytes e.hash = e1.key := by
            simpa using hmem
          rw [← hk] at hhead1
          simp [nodeKeyBytes] at hhead1
        · have hh : e.hash = e1.hash := by
            simpa [nodeKeyBytes] using hmem
          have := huniq e he e1 he1 hh
          rw [this] at hnc
          exact hnc hce1
      · next hce1 =>
        simp only [List.mem_cons, List.not_mem_nil, or_false] at hmem
        rcases hmem with hmem | hmem
        · have hk : nodeKeyBytes e.hash = e1.key := by
            simpa using hmem
          rw [← hk] at hhead1
          simp [nodeKeyBytes] at hhead1
        · simp at hmem
  refine ⟨hto e he, ?_, ?_, ?_⟩
  · rw [hb]
    refine List.mem_append_right _ ?_
    rw [List.mem_flatMap]
    refine ⟨e, he, ?_⟩
    unfold orphanStepOps
    split <;> simp
  · constructor
    · intro hcond
      constructor
      · rw [hb]
        refine List.mem_append_right _ ?_
        rw [List.mem_flatMap]
        refine ⟨e, he, ?_⟩
        unfold orphanStepOps
        rw [if_pos hcond]
        simp
      · intro n hn
        exact ((hc n).1 hn).2 e he hcond
    · rintro ⟨hdel, _⟩
      by_contra hnc
      exact hsurvive hnc hdel
  · intro hnc
    refine ⟨?_, hsurvive hnc, ?_, ?_⟩
    · rw [hb]
      refine List.mem_append_right _ ?_
      rw [List.mem_flatMap]
      refine ⟨e, he, ?_⟩
      unfold orphanStepOps
      rw [if_neg hnc]
      simp
    · intro n hn hhash
      rw [hc n]
      refine ⟨hn, ?_⟩
      intro e1 he1 hce1 heq
      have hh : e1.hash = e.hash := by rw [← heq, hhash]
      have := huniq e1 he1 e he hh
      rw [this] at hce1
      exact hnc hce1
    · rw [hto e he]
      exact hpred

/-- C3: for every orphan entry (first, last = version, hash) enumerated by
the orphan pass of delete_version in either variant: its own orphan entry is
always deleted from the pending batch; the node entry is deleted and the
node removed from the cache if and only if predecessor < first or
first = last; otherwise a replacement orphan entry with last := predecessor
is recorded, the node entry survives and the cached node stays, and the
replacement endpoint is strictly smaller than the old last. Hypotheses:
version is a positive int64 (data model, §3); each hash has at most one
orphan entry (spec invariant, §3); the pending batch holds no deletion of
the affected node keys. -/
theorem delete_version_orphan_lifecycle
    (version : Int) (hv : 1 ≤ version) (hv2 : version < 2 ^ 63)
    (s s' : NDB) (h : NDB.deleteOrphans s version = .ok s')
    (huniq : ∀ e1 ∈ orphansEndingAt s.db version,
      ∀ e2 ∈ orphansEndingAt s.db version, e1.hash = e2.hash → e1 = e2)
    (hclean : ∀ e ∈ orphansEndingAt s.db version,
      BatchOp.del (nodeKeyBytes e.hash) ∉ s.batch)
    (s2 s2' : NDB2) (h2 : NDB2.deleteOrphans s2 version = .ok s2')
    (huniq2 : ∀ e1 ∈ orphansEndingAt s2.db version,
      ∀ e2 ∈ orphansEndingAt s2.db version, e1.hash = e2.hash → e1 = e2)
    (hclean2 : ∀ e ∈ orphansEndingAt s2.db version,
      BatchOp.del (nodeKeyBytes e.hash) ∉ s2.batch) :
    (∀ e ∈ orphansEndingAt s.db version,
      e.toVersion = version ∧
      BatchOp.del e.key ∈ s'.batch ∧
      ((getPreviousVersion s.db version < e.fromVersion ∨
          e.fromVersion = e.toVersion) ↔
        (BatchOp.del (nodeKeyBytes e.hash) ∈ s'.batch ∧
          ∀ n ∈ s'.cacheQueue, n.hash ≠ e.hash)) ∧
      (¬(getPreviousVersion s.db version < e.fromVersion ∨
          e.fromVersion = e.toVersion) →
        BatchOp.set (goOrphanKey e.fromVersion
          (getPreviousVersion s.db version) e.hash) e.hash ∈ s'.batch ∧
        BatchOp.del (nodeKeyBytes e.hash) ∉ s'.batch ∧
        (∀ n ∈ s.cacheQueue, n.hash = e.hash → n ∈ s'.cacheQueue) ∧
        getPreviousVersion s.db version < e.toVersion)) ∧
    (∀ e ∈ orphansEndingAt s2.db version,
      e.toVersion = version ∧
      BatchOp.del e.key ∈ s2'.batch ∧
      ((getPreviousVersion s2.db version < e.fromVersion ∨
          e.fromVersion = e.toVersion) ↔
        (BatchOp.del (nodeKeyBytes e.hash) ∈ s2'.batch ∧
          ∀ n ∈ s2'.cacheQueue, n.hash ≠ e.hash)) ∧
      (¬(getPreviousVersion s2.db version < e.fromVersion ∨
          e.fromVersion = e.toVersion) →
        BatchOp.set (goOrphanKey e.fromVersion
          (getPreviousVersion s2.db version) e.hash) e.hash ∈ s2'.batch ∧
        BatchOp.del (nodeKeyBytes e.hash) ∉ s2'.batch ∧
        (∀ n ∈ s2.cacheQueue, n.hash = e.hash → n ∈ s2'.cacheQueue) ∧
        getPreviousVersion s2.db version < e.toVersion)) := by
  constructor
  · obtain ⟨s'', h'', hbatch, hcache, _, _⟩ := deleteOrphans_ok1 s version
    rw [h] at h''
    injection h'' with h''
    subst h''
    exact orphanPassFacts _ version _ _ _ _ _ hbatch hcache
      ((getPreviousVersion_bounds s.db version).2 hv)
      (fun e he => (mem_orphansEndingAt he).1)
      (fun e he => orphansEndingAt_toVersion he (by omega) hv2)
      huniq hclean
  · obtain ⟨s2'', h'', hbatch, hcache, _, _⟩ := deleteOrphans_ok2 s2 version
    rw [h2] at h''
    injection h'' with h''
    subst h''
    exact orphanPassFacts _ version _ _ _ _ _ hbatch hcache
      ((getPreviousVersion_bounds s2.db version).2 hv)
      (fun e he => (mem_orphansEndingAt he).1)
      (fun e he => orphansEndingAt_toVersion he (by omega) hv2)
      huniq2 hclean2

set_option maxRecDepth 8192 in
/-- Witness for the C3 theorem at a concrete input: deleting the orphans of
version 2 while roots 1 and 3 survive shortens the lifetime [1, 2] of the
orphan to [1, 1] and keeps its node cached. -/
theorem delete_version_orphan_lifecycle_witness :
    BatchOp.set (goOrphanKey 1 1 [7]) [7] ∈ shortenAfter.batch ∧
    mkNode [7] ∈ shortenAfter.cacheQueue ∧
    BatchOp.set (goOrphanKey 1 1 [7]) [7] ∈ shortenAfter2.batch := by
  have h := delete_version_orphan_lifecycle 2 (by decide) (by decide)
    shortenStore shortenAfter (by decide) (by decide) (by decide)
    shortenStore2 shortenAfter2 (by decide) (by decide) (by decide)
  have he : ({ key := goOrphanKey 1 2 [7], hash := [7], fromVersion := 1, toVersion := 2 } : OrphanEntry) ∈ orphansEndingAt shortenStore.db 2 := by
    decide
  have he2 : ({ key := goOrphanKey 1 2 [7], hash := [7], fromVersion := 1, toVersion := 2 } : OrphanEntry) ∈ orphansEndingAt shortenStore2.db 2 := by
    decide
  have hfacts := h.1 _ he
  have hfacts2 := h.2 _ he2
  have hnc : ¬(getPreviousVersion shortenStore.db 2 < (1 : Int) ∨ (1 : Int) = 2) := by
    decide
  have hnc2 : ¬(getPreviousVersion shortenStore2.db 2 < (1 : Int) ∨ (1 : Int) = 2) := by
    decide
  refine ⟨?_, ?_, ?_⟩
  · have := (hfacts.2.2.2 hnc).1
    simpa using this
  · exact (hfacts.2.2.2 hnc).2.2.1 (mkNode [7]) (by decide) (by decide)
  · have := (hfacts2.2.2.2 hnc2).1
    simpa using this

set_option maxRecDepth 8192 in
/-- C4 (counterexample): deleting the latest version 2 of `latestStore` with
check_latest = true does fail with InvariantViolation, but the check is not
the first step: at the moment of failure the orphan pass has already deleted
the orphan entry and the node entry in the pending batch and removed the
node from the cache. -/
theorem delete_latest_counterexample :
    NDB.DeleteVersion latestStore 2 true =
      .error (.invariantViolation, latestStoreAfter) ∧
    latestStoreAfter.batch ≠ latestStore.batch ∧
    latestStoreAfter.cacheQueue ≠ latestStore.cacheQueue := by
  refine ⟨by decide, by decide, by decide⟩

/-- C4 (amended): `DeleteVersion(v, check_latest = true)` fails with
InvariantViolation exactly when v is the latest version, but the check runs
in deleteRoot, after the orphan pass: at the moment of failure the pending
batch already holds the orphan pass's deletions and shortenings, and only
the root deletion is skipped. -/
theorem delete_latest_check_spec (s s1 : NDB) (v : Int)
    (h1 : NDB.deleteOrphans s v = .ok s1) :
    s1.batch = s.batch ++ (orphansEndingAt s.db v).flatMap
      (orphanStepOps (getPreviousVersion s.db v)) ∧
    (v = (s1.getLatestVersion).1 →
      NDB.DeleteVersion s v true =
        .error (.invariantViolation, (s1.getLatestVersion).2)) ∧
    (v ≠ (s1.getLatestVersion).1 →
      NDB.DeleteVersion s v true =
        .ok { (s1.getLatestVersion).2 with
          batch := (s1.getLatestVersion).2.batch ++ [.del (rootKeyBytes v)] }) := by
  obtain ⟨s'', h'', hbatch, _, _, _⟩ := deleteOrphans_ok1 s v
  rw [h1] at h''
  injection h'' with h''
  subst h''
  refine ⟨hbatch, ?_, ?_⟩
  · intro hv
    unfold NDB.DeleteVersion
    simp only [h1, Bind.bind, Except.bind]
    unfold NDB.deleteRoot
    rw [if_pos rfl, if_pos hv]
  · intro hv
    unfold NDB.DeleteVersion
    simp only [h1, Bind.bind, Except.bind]
    unfold NDB.deleteRoot
    rw [if_pos rfl, if_neg hv]

set_option maxRecDepth 8192 in
/-- Witness for the amended C4 theorem at a concrete input. -/
theorem delete_latest_check_spec_witness :
    NDB.DeleteVersion latestStore 2 true =
      .error (.invariantViolation, (latestStoreAfter.getLatestVersion).2) := by
  have h := delete_latest_check_spec latestStore latestStoreAfter 2 (by decide)
  exact h.2.1 (by decide)

/-- C10: `DeleteVersion(v, check_latest = false)` always succeeds and never
changes the in-memory latest-version counter — even when v is the latest
version — and the backing store is untouched (the root deletion is only
queued in the batch), so the latest-version query returns the same value
afterwards; the counter is only overwritten by an explicit
resetLatestVersion call. -/
theorem delete_version_keeps_latest (s : NDB) (v : Int) :
    ∃ s', NDB.DeleteVersion s v false = .ok s' ∧
      s'.latestVersion = s.latestVersion ∧
      s'.db = s.db ∧
      (s'.getLatestVersion).1 = (s.getLatestVersion).1 ∧
      ∀ w, (NDB.resetLatestVersion s' w).latestVersion = w := by
  obtain ⟨s1, h1, _, _, hdb, hlv⟩ := deleteOrphans_ok1 s v
  refine ⟨{ s1 with batch := s1.batch ++ [.del (rootKeyBytes v)] }, ?_,
    by simpa using hlv, by simpa using hdb, ?_, fun w => rfl⟩
  · unfold NDB.DeleteVersion
    simp only [h1, Bind.bind, Except.bind]
    rfl
  · exact getLatestVersion_fst_congr _ _ (by simpa using hdb) (by simpa using hlv)

/-- C6 (counterexample): in the single-lock variant, a cache miss consults
the memory-node staging tier before the backing store: on `memTierStore`
the requested hash has no entry in the backing store, yet GetNode succeeds
(returning the staged node, not marked persisted) instead of failing with
InvariantViolation as the claim requires. -/
theorem get_node_counterexample :
    dbGet memTierStore.db (nodeKeyBytes [9]) = none ∧
    NDB.GetNode decodeFail memTierStore [9] =
      .ok (memNode9, { memTierStore with cacheQueue := [memNode9] }) ∧
    memNode9.persisted = false := by
  refine ⟨by decide, by decide, by decide⟩

/-- C6 (amended): get_node behaves as claimed in the two-lock variant
(cache hit promoted to most recently used; on a miss the backing store is
read, the decoded node is marked persisted, given its hash and cached;
InvariantViolation when the hash is empty or no entry exists; Corrupt when
decoding fails). In the single-lock variant a cache miss first consults the
memory-node staging map: a node found there is returned with its hash set
and cached, without a backing-store read and without being marked
persisted; only when absent there does the backing-store path with its
failures and persisted marking apply. -/
theorem get_node_spec (decode : Bytes → Option Node) (s : NDB) (s2 : NDB2)
    (h : Bytes) :
    (h = [] → NDB.GetNode decode s h = .error (.invariantViolation, s) ∧
      NDB2.GetNode decode s2 h = .error (.invariantViolation, s2)) ∧
    (h ≠ [] → ∀ n, s2.cacheQueue.find? (fun m => decide (m.hash = h)) = some n →
      NDB2.GetNode decode s2 h = .ok (n, { s2 with
        cacheQueue := s2.cacheQueue.eraseP (fun m => decide (m.hash = h)) ++ [n] })) ∧
    (h ≠ [] → s2.cacheQueue.find? (fun m => decide (m.hash = h)) = none →
      dbGet s2.db (nodeKeyBytes h) = none →
      NDB2.GetNode decode s2 h = .error (.invariantViolation, s2)) ∧
    (h ≠ [] → s2.cacheQueue.find? (fun m => decide (m.hash = h)) = none →
      ∀ buf, dbGet s2.db (nodeKeyBytes h) = some buf → decode buf = none →
      NDB2.GetNode decode s2 h = .error (.corrupt, s2)) ∧
    (h ≠ [] → s2.cacheQueue.find? (fun m => decide (m.hash = h)) = none →
      ∀ buf node, dbGet s2.db (nodeKeyBytes h) = some buf →
      decode buf = some node →
      NDB2.GetNode decode s2 h =
        .ok ({ node with hash := h, persisted := true },
          s2.cacheNode { node with hash := h, persisted := true })) ∧
    (h ≠ [] → ∀ n, s.cacheQueue.find? (fun m => decide (m.hash = h)) = some n →
      NDB.GetNode decode s h = .ok (n, { s with
        cacheQueue := s.cacheQueue.eraseP (fun m => decide (m.hash = h)) ++ [n] })) ∧
    (h ≠ [] → s.cacheQueue.find? (fun m => decide (m.hash = h)) = none →
      ∀ node,
      (s.memNodes.find? (fun kv => decide (kv.1 = h))).map (fun kv => kv.2) =
        some node →
      NDB.GetNode decode s h =
        .ok ({ node with hash := h }, s.cacheNode { node with hash := h })) ∧
    (h ≠ [] → s.cacheQueue.find? (fun m => decide (m.hash = h)) = none →
      (s.memNodes.find? (fun kv => decide (kv.1 = h))).map (fun kv => kv.2) = none →
      dbGet s.db (nodeKeyBytes h) = none →
      NDB.GetNode decode s h = .error (.invariantViolation, s)) ∧
    (h ≠ [] → s.cacheQueue.find? (fun m => decide (m.hash = h)) = none →
      (s.memNodes.find? (fun kv => decide (kv.1 = h))).map (fun kv => kv.2) = none →
      ∀ buf, dbGet s.db (nodeKeyBytes h) = some buf → decode buf = none →
      NDB.GetNode decode s h = .error (.corrupt, s)) ∧
    (h ≠ [] → s.cacheQueue.find? (fun m => decide (m.hash = h)) = none →
      (s.memNodes.find? (fun kv => decide (kv.1 = h))).map (fun kv => kv.2) = none →
      ∀ buf node, dbGet s.db (nodeKeyBytes h) = some buf →
      decode buf = some node →
      NDB.GetNode decode s h =
        .ok ({ node with persisted := true, hash := h },
          s.cacheNode { node with persisted := true, hash := h })) := by
  refine ⟨?_, ?_, ?_, ?_, ?_, ?_, ?_, ?_, ?_, ?_⟩
  · intro he
    constructor
    · unfold NDB.GetNode
      rw [if_pos he]
    · unfold NDB2.GetNode
      rw [if_pos he]
  · intro hne n hfind
    unfold NDB2.GetNode NDB2.getCachedNode
    rw [if_neg hne, hfind]
  · intro hne hfind hdb
    unfold NDB2.GetNode NDB2.getCachedNode
    rw [if_neg hne, hfind]
    dsimp only
    rw [hdb]
  · intro hne hfind buf hdb hdec
    unfold NDB2.GetNode NDB2.getCachedNode
    rw [if_neg hne, hfind]
    dsimp only
    rw [hdb]
    dsimp only
    rw [hdec]
  · intro hne hfind buf node hdb hdec
    unfold NDB2.GetNode NDB2.getCachedNode
    rw [if_neg hne, hfind]
    dsimp only
    rw [hdb]
    dsimp only
    rw [hdec]
  · intro hne n hfind
    unfold NDB.GetNode
    rw [if_neg hne, hfind]
  · intro hne hfind node hmem
    unfold NDB.GetNode
    rw [if_neg hne, hfind, hmem]
  · intro hne hfind hmem hdb
    unfold NDB.GetNode
    rw [if_neg hne, hfind, hmem]
    dsimp only
    rw [hdb]
  · intro hne hfind hmem buf hdb hdec
    unfold NDB.GetNode
    rw [if_neg hne, hfind, hmem]
    dsimp only
    rw [hdb]
    dsimp only
    rw [hdec]
  · intro hne hfind hmem buf node hdb hdec
    unfold NDB.GetNode
    rw [if_neg hne, hfind, hmem]
    dsimp only
    rw [hdb]
    dsimp only
    rw [hdec]

/-- Witness for the amended C6 theorem at a concrete input: a two-lock
backing-store read decodes, marks persisted, sets the hash and caches. -/
theorem get_node_spec_witness :
    NDB2.GetNode decodeWrap getStore2 [9] =
      .ok (wrapNode9, { getStore2 with cacheQueue := [wrapNode9] }) := by
  have h := get_node_spec decodeWrap memTierStore getStore2 [9]
  have hc := h.2.2.2.2.1 (by decide) (by decide) [55]
    { hash := [], persisted := false, persistedMem := false, content := [55] }
    (by decide) (by decide)
  exact hc.trans (by decide)
